import Mathlib

/- Verification of the Buckingham Pi computation of `pi_theorem.py`.

The source builds a dimension matrix from the caller's ordered mapping of
variable names to exponent vectors, computes its rank and an exact rational
null-space basis, checks the basis cardinality against `n - rank`, and turns
each basis vector into a dimensionless monomial (a Pi term).

The sympy calls (`Matrix`, `transpose`, `rank`, `nullspace`) are modelled by
executable Gauss-Jordan elimination over `ℚ`, the algorithm those routines
implement with exact rational arithmetic. -/

namespace PiSpec

/-- List indexing with a default value (the matrix-entry convention: `0`
outside the stored entries). -/
def nthD : List α → Nat → α → α
  | [], _, d => d
  | a :: _, 0, _ => a
  | _ :: l, i+1, d => nthD l i d

@[simp] theorem nthD_nil (i : Nat) (d : α) : nthD ([] : List α) i d = d := rfl

@[simp] theorem nthD_cons_zero (a : α) (l : List α) (d : α) : nthD (a :: l) 0 d = a := rfl

@[simp] theorem nthD_cons_succ (a : α) (l : List α) (i : Nat) (d : α) :
    nthD (a :: l) (i+1) d = nthD l i d := rfl

theorem nthD_ge (l : List α) (i : Nat) (d : α) (h : l.length ≤ i) : nthD l i d = d := by
  induction l generalizing i with
  | nil => rfl
  | cons a l ih =>
    cases i with
    | zero => simp at h
    | succ i => simpa using ih i (by simpa using h)

theorem nthD_mem (l : List α) (i : Nat) (d : α) (h : i < l.length) : nthD l i d ∈ l := by
  induction l generalizing i with
  | nil => simp at h
  | cons a l ih =>
    cases i with
    | zero => simp
    | succ i => exact List.mem_cons_of_mem _ (ih i (by simpa using h))

theorem nthD_append_lt (l₁ l₂ : List α) (i : Nat) (d : α) (h : i < l₁.length) :
    nthD (l₁ ++ l₂) i d = nthD l₁ i d := by
  induction l₁ generalizing i with
  | nil => simp at h
  | cons a l ih =>
    cases i with
    | zero => rfl
    | succ i => simpa using ih i (by simpa using h)

theorem nthD_append_right (l₁ l₂ : List α) (i : Nat) (d : α) :
    nthD (l₁ ++ l₂) (l₁.length + i) d = nthD l₂ i d := by
  induction l₁ with
  | nil => simp
  | cons a l ih => simpa [Nat.succ_add] using ih

/-- In-place update of one list position (Python list assignment). -/
def setAt : List α → Nat → α → List α
  | [], _, _ => []
  | _ :: l, 0, b => b :: l
  | a :: l, i+1, b => a :: setAt l i b

@[simp] theorem setAt_nil (i : Nat) (b : α) : setAt ([] : List α) i b = [] := rfl

@[simp] theorem setAt_cons_zero (a : α) (l : List α) (b : α) :
    setAt (a :: l) 0 b = b :: l := rfl

@[simp] theorem setAt_cons_succ (a : α) (l : List α) (i : Nat) (b : α) :
    setAt (a :: l) (i+1) b = a :: setAt l i b := rfl

@[simp] theorem length_setAt (l : List α) (i : Nat) (b : α) :
    (setAt l i b).length = l.length := by
  induction l generalizing i with
  | nil => rfl
  | cons a l ih => cases i with
    | zero => rfl
    | succ i => simp [ih i]

theorem nthD_setAt_eq (l : List α) (i : Nat) (b d : α) (h : i < l.length) :
    nthD (setAt l i b) i d = b := by
  induction l generalizing i with
  | nil => simp at h
  | cons a l ih =>
    cases i with
    | zero => rfl
    | succ i => simpa using ih i (by simpa using h)

theorem nthD_setAt_ne (l : List α) (i j : Nat) (b d : α) (h : i ≠ j) :
    nthD (setAt l i b) j d = nthD l j d := by
  induction l generalizing i j with
  | nil => rfl
  | cons a l ih =>
    cases i with
    | zero => cases j with
      | zero => exact absurd rfl h
      | succ j => rfl
    | succ i => cases j with
      | zero => rfl
      | succ j => simpa using ih i j (fun hij => h (by simpa using hij))

theorem mem_setAt (l : List α) (i : Nat) (b : α) (a : α) (h : a ∈ setAt l i b) :
    a = b ∨ a ∈ l := by
  induction l generalizing i with
  | nil => simp [setAt] at h
  | cons x l ih =>
    cases i with
    | zero =>
      rcases List.mem_cons.1 h with h | h
      · exact Or.inl h
      · exact Or.inr (List.mem_cons_of_mem _ h)
    | succ i =>
      rcases List.mem_cons.1 h with h | h
      · exact Or.inr (h ▸ List.mem_cons_self _ _)
      · rcases ih i h with h | h
        · exact Or.inl h
        · exact Or.inr (List.mem_cons_of_mem _ h)

/-- Row `i` of a matrix stored as a list of rows. -/
def rowA (M : List (List ℚ)) (i : Nat) : List ℚ := nthD M i []

/-- Entry `(i, j)` of a matrix stored as a list of rows. -/
def entryM (M : List (List ℚ)) (i j : Nat) : ℚ := nthD (rowA M i) j 0

theorem rowA_ge (M : List (List ℚ)) (i : Nat) (h : M.length ≤ i) : rowA M i = [] :=
  nthD_ge M i [] h

theorem rowA_mem (M : List (List ℚ)) (i : Nat) (h : i < M.length) : rowA M i ∈ M :=
  nthD_mem M i [] h

/-- Dot product of two rational vectors (`sum` of pairwise products). -/
def dotL (r v : List ℚ) : ℚ := (List.zipWith (fun a b => a * b) r v).sum

@[simp] theorem dotL_nil_left (v : List ℚ) : dotL [] v = 0 := rfl

@[simp] theorem dotL_nil_right (r : List ℚ) : dotL r [] = 0 := by
  cases r <;> rfl

@[simp] theorem dotL_cons_cons (a b : ℚ) (r v : List ℚ) :
    dotL (a :: r) (b :: v) = a * b + dotL r v := by
  simp [dotL]

theorem dotL_scale (a : ℚ) (r v : List ℚ) :
    dotL (r.map (fun x => a * x)) v = a * dotL r v := by
  induction r generalizing v with
  | nil => simp
  | cons x r ih =>
    cases v with
    | nil => simp
    | cons y v => simp [ih, mul_add, mul_assoc]

theorem dotL_sub (r s v : List ℚ) (h : r.length = s.length) :
    dotL (List.zipWith (fun a b => a - b) r s) v = dotL r v - dotL s v := by
  induction r generalizing s v with
  | nil =>
    cases s with
    | nil => simp
    | cons y s => simp at h
  | cons x r ih =>
    cases s with
    | nil => simp at h
    | cons y s =>
      cases v with
      | nil => simp
      | cons z v =>
        have := ih s v (by simpa using h)
        simp [this]
        ring

theorem dotL_eq_sum (r v : List ℚ) (n : Nat) (hr : r.length = n) (hv : v.length = n) :
    dotL r v = ∑ j ∈ Finset.range n, nthD r j 0 * nthD v j 0 := by
  induction r generalizing v n with
  | nil =>
    subst hr
    simp
  | cons x r ih =>
    cases v with
    | nil => simp at hv hr; omega
    | cons y v =>
      cases n with
      | zero => simp at hr
      | succ n =>
        rw [Finset.sum_range_succ']
        simp only [nthD_cons_succ, nthD_cons_zero]
        rw [dotL_cons_cons, ih v n (by simpa using hr) (by simpa using hv)]
        ring

/-- `v` is a solution of the homogeneous system given by the rows of `M`
(every row has zero dot product with `v`). -/
def NullVec (M : List (List ℚ)) (v : List ℚ) : Prop := ∀ i, dotL (rowA M i) v = 0

/-- Matrix-vector product, one dot product per row. -/
def mulVecL (M : List (List ℚ)) (v : List ℚ) : List ℚ := M.map (fun r => dotL r v)

theorem nullVec_iff_mulVecL (M : List (List ℚ)) (v : List ℚ) :
    NullVec M v ↔ mulVecL M v = List.replicate M.length 0 := by
  constructor
  · intro h
    apply List.ext_get (by simp [mulVecL])
    intro i h1 h2
    have hi : i < M.length := by simpa [mulVecL] using h1
    have hrow : rowA M i = M[i] := by
      simp only [rowA]
      clear h h1 h2
      induction M generalizing i with
      | nil => simp at hi
      | cons r M ih =>
        cases i with
        | zero => rfl
        | succ i => simpa using ih i (by simpa using hi)
    have hz := h i
    rw [hrow] at hz
    simp [mulVecL, hz]
  · intro h i
    by_cases hi : i < M.length
    · have : dotL (rowA M i) v ∈ mulVecL M v := by
        exact List.mem_map_of_mem _ (rowA_mem M i hi)
      rw [h] at this
      exact List.eq_of_mem_replicate this
    · rw [rowA_ge M i (Nat.le_of_not_lt hi)]
      simp

/-! ### Elementary row operations and their effect on solutions -/

/-- Swap rows `a` and `b` (the pivoting step of Gaussian elimination). -/
def swapRows (M : List (List ℚ)) (a b : Nat) : List (List ℚ) :=
  setAt (setAt M a (rowA M b)) b (rowA M a)

/-- Scale row `i` by the factor `c` (pivot normalisation). -/
def scaleRow (M : List (List ℚ)) (i : Nat) (c : ℚ) : List (List ℚ) :=
  setAt M i ((rowA M i).map (fun x => c * x))

/-- Subtract from every row other than `k` its column-`c` entry times the
pivot row `p` (clearing column `c`). -/
def elimColAux (rows : List (List ℚ)) (j k c : Nat) (p : List ℚ) : List (List ℚ) :=
  match rows with
  | [] => []
  | r :: rest =>
    (if j = k then r
     else List.zipWith (fun a b => a - b) r (p.map (fun x => nthD r c 0 * x))) ::
    elimColAux rest (j+1) k c p

/-- Clear column `c` outside the pivot row `k`. -/
def elimCol (M : List (List ℚ)) (k c : Nat) : List (List ℚ) :=
  elimColAux M 0 k c (rowA M k)

@[simp] theorem length_swapRows (M : List (List ℚ)) (a b : Nat) :
    (swapRows M a b).length = M.length := by simp [swapRows]

@[simp] theorem length_scaleRow (M : List (List ℚ)) (i : Nat) (c : ℚ) :
    (scaleRow M i c).length = M.length := by simp [scaleRow]

theorem length_elimColAux (rows : List (List ℚ)) (j k c : Nat) (p : List ℚ) :
    (elimColAux rows j k c p).length = rows.length := by
  induction rows generalizing j with
  | nil => rfl
  | cons r rest ih => simp [elimColAux, ih]

@[simp] theorem length_elimCol (M : List (List ℚ)) (k c : Nat) :
    (elimCol M k c).length = M.length := length_elimColAux M 0 k c (rowA M k)

theorem rowA_swapRows (M : List (List ℚ)) (a b t : Nat) (ha : a < M.length)
    (hb : b < M.length) :
    rowA (swapRows M a b) t = if t = b then rowA M a else if t = a then rowA M b
      else rowA M t := by
  unfold swapRows rowA
  by_cases htb : t = b
  · subst htb
    rw [if_pos rfl]
    exact nthD_setAt_eq _ _ _ _ (by simpa using hb)
  · rw [if_neg htb, nthD_setAt_ne _ _ _ _ _ (fun h => htb h.symm)]
    by_cases hta : t = a
    · subst hta
      rw [if_pos rfl]
      exact nthD_setAt_eq _ _ _ _ ha
    · rw [if_neg hta, nthD_setAt_ne _ _ _ _ _ (fun h => hta h.symm)]

theorem rowA_scaleRow_self (M : List (List ℚ)) (i : Nat) (c : ℚ) (hi : i < M.length) :
    rowA (scaleRow M i c) i = (rowA M i).map (fun x => c * x) := by
  unfold scaleRow rowA
  exact nthD_setAt_eq _ _ _ _ hi

theorem rowA_scaleRow_ne (M : List (List ℚ)) (i t : Nat) (c : ℚ) (h : i ≠ t) :
    rowA (scaleRow M i c) t = rowA M t := by
  unfold scaleRow rowA
  exact nthD_setAt_ne _ _ _ _ _ h

theorem rowA_elimColAux (rows : List (List ℚ)) (j k c t : Nat) (p : List ℚ)
    (ht : t < rows.length) :
    rowA (elimColAux rows j k c p) t =
      if j + t = k then rowA rows t
      else List.zipWith (fun a b => a - b) (rowA rows t)
        (p.map (fun x => nthD (rowA rows t) c 0 * x)) := by
  induction rows generalizing j t with
  | nil => simp at ht
  | cons r rest ih =>
    cases t with
    | zero =>
      simp only [elimColAux, rowA, nthD_cons_zero, Nat.add_zero]
    | succ t =>
      have hih := ih (j+1) t (by simpa using ht)
      simp only [elimColAux, rowA, nthD_cons_succ] at hih ⊢
      rw [hih]
      have heq : j + 1 + t = j + (t + 1) := by omega
      rw [heq]

theorem rowA_elimCol (M : List (List ℚ)) (k c t : Nat) (ht : t < M.length) :
    rowA (elimCol M k c) t =
      if t = k then rowA M t
      else List.zipWith (fun a b => a - b) (rowA M t)
        ((rowA M k).map (fun x => nthD (rowA M t) c 0 * x)) := by
  have := rowA_elimColAux M 0 k c t (rowA M k) ht
  simpa using this

theorem nullVec_swapRows (M : List (List ℚ)) (v : List ℚ) (a b : Nat)
    (ha : a < M.length) (hb : b < M.length) :
    NullVec (swapRows M a b) v ↔ NullVec M v := by
  constructor
  · intro h t
    by_cases htl : t < M.length
    · by_cases hta : t = a
      · subst hta
        have hh := h b
        rw [rowA_swapRows M t b b ha hb, if_pos rfl] at hh
        exact hh
      · by_cases htb : t = b
        · subst htb
          have hh := h a
          rw [rowA_swapRows M a t a ha hb] at hh
          by_cases hab : a = t
          · subst hab
            simpa using hh
          · rw [if_neg hab, if_pos rfl] at hh
            exact hh
        · have hh := h t
          rw [rowA_swapRows M a b t ha hb, if_neg htb, if_neg hta] at hh
          exact hh
    · rw [rowA_ge M t (Nat.le_of_not_lt htl)]
      simp
  · intro h t
    by_cases htl : t < M.length
    · rw [rowA_swapRows M a b t ha hb]
      by_cases htb : t = b
      · rw [if_pos htb]; exact h a
      · rw [if_neg htb]
        by_cases hta : t = a
        · rw [if_pos hta]; exact h b
        · rw [if_neg hta]; exact h t
    · rw [rowA_ge _ t (by simpa using Nat.le_of_not_lt htl)]
      simp

theorem nullVec_scaleRow (M : List (List ℚ)) (v : List ℚ) (i : Nat) (c : ℚ)
    (hi : i < M.length) (hc : c ≠ 0) :
    NullVec (scaleRow M i c) v ↔ NullVec M v := by
  constructor
  · intro h t
    by_cases hti : t = i
    · subst hti
      have hh := h t
      rw [rowA_scaleRow_self M t c hi, dotL_scale] at hh
      exact (mul_eq_zero.1 hh).resolve_left hc
    · have hh := h t
      rw [rowA_scaleRow_ne M i t c (fun he => hti he.symm)] at hh
      exact hh
  · intro h t
    by_cases hti : t = i
    · subst hti
      rw [rowA_scaleRow_self M t c hi, dotL_scale, h t, mul_zero]
    · rw [rowA_scaleRow_ne M i t c (fun he => hti he.symm)]
      exact h t

theorem nullVec_elimCol (M : List (List ℚ)) (v : List ℚ) (k c : Nat) (n : Nat)
    (hk : k < M.length) (hrows : ∀ r ∈ M, r.length = n) :
    NullVec (elimCol M k c) v ↔ NullVec M v := by
  have hlen : ∀ t, t < M.length →
      (rowA M t).length = ((rowA M k).map (fun x => nthD (rowA M t) c 0 * x)).length := by
    intro t htl
    rw [List.length_map, hrows _ (rowA_mem M t htl), hrows _ (rowA_mem M k hk)]
  have hrk : rowA (elimCol M k c) k = rowA M k := by
    rw [rowA_elimCol M k c k hk, if_pos rfl]
  constructor
  · intro h t
    by_cases htl : t < M.length
    · by_cases htk : t = k
      · subst htk
        have hh := h t
        rw [hrk] at hh
        exact hh
      · have hh := h t
        rw [rowA_elimCol M k c t htl, if_neg htk,
          dotL_sub _ _ _ (hlen t htl), dotL_scale] at hh
        have hk0 := h k
        rw [hrk] at hk0
        rw [hk0, mul_zero, sub_zero] at hh
        exact hh
    · rw [rowA_ge M t (Nat.le_of_not_lt htl)]
      simp
  · intro h t
    by_cases htl : t < M.length
    · rw [rowA_elimCol M k c t htl]
      by_cases htk : t = k
      · rw [if_pos htk]; exact h t
      · rw [if_neg htk, dotL_sub _ _ _ (hlen t htl), dotL_scale, h t, h k, mul_zero,
          sub_zero]
    · rw [rowA_ge _ t (by simpa using Nat.le_of_not_lt htl)]
      simp

theorem rows_length_swapRows (M : List (List ℚ)) (a b : Nat) (n : Nat)
    (ha : a < M.length) (hb : b < M.length) (hrows : ∀ r ∈ M, r.length = n) :
    ∀ r ∈ swapRows M a b, r.length = n := by
  intro r hr
  rcases mem_setAt _ _ _ _ hr with hr | hr
  · exact hr ▸ hrows _ (rowA_mem M a ha)
  · rcases mem_setAt _ _ _ _ hr with hr | hr
    · exact hr ▸ hrows _ (rowA_mem M b hb)
    · exact hrows _ hr

theorem rows_length_scaleRow (M : List (List ℚ)) (i : Nat) (c : ℚ) (n : Nat)
    (hi : i < M.length) (hrows : ∀ r ∈ M, r.length = n) :
    ∀ r ∈ scaleRow M i c, r.length = n := by
  intro r hr
  rcases mem_setAt _ _ _ _ hr with hr | hr
  · rw [hr, List.length_map]
    exact hrows _ (rowA_mem M i hi)
  · exact hrows _ hr

theorem mem_elimColAux (rows : List (List ℚ)) (j k c : Nat) (p : List ℚ)
    (r' : List ℚ) (h : r' ∈ elimColAux rows j k c p) :
    ∃ r ∈ rows, r' = r ∨ r' = List.zipWith (fun a b => a - b) r
      (p.map (fun x => nthD r c 0 * x)) := by
  induction rows generalizing j with
  | nil => simp [elimColAux] at h
  | cons r rest ih =>
    rcases List.mem_cons.1 h with h | h
    · refine ⟨r, List.mem_cons_self _ _, ?_⟩
      by_cases hjk : j = k
      · rw [if_pos hjk] at h
        exact Or.inl h
      · rw [if_neg hjk] at h
        exact Or.inr h
    · rcases ih (j+1) h with ⟨r0, hr0, hcase⟩
      exact ⟨r0, List.mem_cons_of_mem _ hr0, hcase⟩

theorem rows_length_elimCol (M : List (List ℚ)) (k c : Nat) (n : Nat)
    (hk : k < M.length) (hrows : ∀ r ∈ M, r.length = n) :
    ∀ r ∈ elimCol M k c, r.length = n := by
  intro r' hr'
  rcases mem_elimColAux M 0 k c (rowA M k) r' hr' with ⟨r, hr, hcase⟩
  rcases hcase with hcase | hcase
  · exact hcase ▸ hrows _ hr
  · rw [hcase, List.length_zipWith, List.length_map,
      hrows _ hr, hrows _ (rowA_mem M k hk), Nat.min_self]

/-! ### Pivot search -/

theorem nthD_drop (M : List α) (k t : Nat) (d : α) :
    nthD (M.drop k) t d = nthD M (k + t) d := by
  induction M generalizing k with
  | nil => simp
  | cons a rest ih =>
    cases k with
    | zero => simp
    | succ k =>
      have := ih k
      simpa [Nat.succ_add] using this

/-- Search for the first row at index `≥ base` whose column-`c` entry is
nonzero (sympy's pivot search with exact zero testing). -/
def findPivotAux (rows : List (List ℚ)) (c base : Nat) : Option Nat :=
  match rows with
  | [] => none
  | r :: rest => if nthD r c 0 ≠ 0 then some base else findPivotAux rest c (base+1)

/-- First row index `≥ k` whose column-`c` entry is nonzero. -/
def findPivot (M : List (List ℚ)) (k c : Nat) : Option Nat :=
  findPivotAux (M.drop k) c k

theorem findPivotAux_some (rows : List (List ℚ)) (c base i : Nat)
    (h : findPivotAux rows c base = some i) :
    ∃ t, i = base + t ∧ t < rows.length ∧ nthD (rowA rows t) c 0 ≠ 0 := by
  induction rows generalizing base with
  | nil => simp [findPivotAux] at h
  | cons r rest ih =>
    by_cases hz : nthD r c 0 ≠ 0
    · rw [findPivotAux, if_pos hz] at h
      have hbi : base = i := Option.some.inj h
      subst hbi
      exact ⟨0, by omega, by simp, by simpa [rowA] using hz⟩
    · rw [findPivotAux, if_neg hz] at h
      rcases ih (base+1) h with ⟨t, hit, htl, hnz⟩
      exact ⟨t+1, by omega, by simpa using htl, by simpa [rowA] using hnz⟩

theorem findPivotAux_none (rows : List (List ℚ)) (c base : Nat)
    (h : findPivotAux rows c base = none) :
    ∀ t, t < rows.length → nthD (rowA rows t) c 0 = 0 := by
  induction rows generalizing base with
  | nil => simp
  | cons r rest ih =>
    by_cases hz : nthD r c 0 ≠ 0
    · rw [findPivotAux, if_pos hz] at h
      exact absurd h (by simp)
    · rw [findPivotAux, if_neg hz] at h
      intro t htl
      cases t with
      | zero => simpa [rowA] using hz
      | succ t => simpa [rowA] using ih (base+1) h t (by simpa using htl)

theorem findPivot_some (M : List (List ℚ)) (k c i : Nat)
    (h : findPivot M k c = some i) :
    k ≤ i ∧ i < M.length ∧ entryM M i c ≠ 0 := by
  rcases findPivotAux_some _ c k i h with ⟨t, hit, htl, hnz⟩
  rw [List.length_drop] at htl
  have hrow : rowA (M.drop k) t = rowA M (k + t) := nthD_drop M k t []
  rw [hrow] at hnz
  subst hit
  exact ⟨Nat.le_add_right _ _, by omega, hnz⟩

theorem findPivot_none (M : List (List ℚ)) (k c : Nat)
    (h : findPivot M k c = none) :
    ∀ i, k ≤ i → entryM M i c = 0 := by
  intro i hki
  by_cases hil : i < M.length
  · have ht := findPivotAux_none _ c k h (i - k)
    rw [List.length_drop] at ht
    simp only [rowA] at ht
    rw [nthD_drop] at ht
    have hik : k + (i - k) = i := by omega
    rw [hik] at ht
    simpa [entryM, rowA] using ht (by omega)
  · unfold entryM
    rw [rowA_ge M i (Nat.le_of_not_lt hil)]
    simp

theorem nthD_map_mul (a : ℚ) (l : List ℚ) (j : Nat) :
    nthD (l.map (fun x => a * x)) j 0 = a * nthD l j 0 := by
  induction l generalizing j with
  | nil => simp
  | cons x l ih =>
    cases j with
    | zero => simp
    | succ j => simpa using ih j

theorem nthD_zipWith_sub (r s : List ℚ) (j : Nat) (h : r.length = s.length) :
    nthD (List.zipWith (fun a b => a - b) r s) j 0 = nthD r j 0 - nthD s j 0 := by
  induction r generalizing s j with
  | nil =>
    cases s with
    | nil => simp
    | cons y s => simp at h
  | cons x r ih =>
    cases s with
    | nil => simp at h
    | cons y s =>
      cases j with
      | zero => simp
      | succ j => simpa using ih s j (by simpa using h)

/-! ### Gauss-Jordan elimination -/

/-- Process the listed columns left to right; for each column with a nonzero
entry at or below the current pivot count, promote that row, normalise it and
clear the column everywhere else (the reduction behind sympy's `rref`). -/
def rrefGo (M : List (List ℚ)) (k : Nat) (cols : List Nat) (pivs : List Nat) :
    List (List ℚ) × List Nat :=
  match cols with
  | [] => (M, pivs)
  | c :: rest =>
    match findPivot M k c with
    | none => rrefGo M k rest pivs
    | some i =>
      let M1 := swapRows M k i
      let M2 := scaleRow M1 k (entryM M1 k c)⁻¹
      let M3 := elimCol M2 k c
      rrefGo M3 (k+1) rest (pivs ++ [c])

/-- Reduced row echelon form together with the pivot column list
(sympy's `Matrix.rref`). -/
def rrefL (M : List (List ℚ)) (ncols : Nat) : List (List ℚ) × List Nat :=
  rrefGo M 0 (List.range ncols) []

/-- Loop invariant of the Gauss-Jordan pass: row lengths are preserved,
`pivs` lists the pivot columns found so far (one per promoted row, all in
already-processed columns, without repetition), the promoted rows carry an
identity block on the pivot columns, and all rows at or below the pivot
count vanish on every processed column. -/
structure RrefInv (ncols : Nat) (M : List (List ℚ)) (k c : Nat)
    (pivs : List Nat) : Prop where
  hrows : ∀ r ∈ M, r.length = ncols
  hk : pivs.length = k
  hkle : k ≤ M.length
  hplt : ∀ p ∈ pivs, p < c
  hnodup : pivs.Nodup
  hdelta : ∀ a b : Nat, a < k → b < k →
    entryM M a (nthD pivs b 0) = if a = b then 1 else 0
  hzero : ∀ i, k ≤ i → ∀ j, j < c → entryM M i j = 0

theorem rrefStep (ncols : Nat) (M : List (List ℚ)) (k c i : Nat) (pivs : List Nat)
    (inv : RrefInv ncols M k c pivs) (hp : findPivot M k c = some i) :
    RrefInv ncols
      (elimCol (scaleRow (swapRows M k i) k (entryM (swapRows M k i) k c)⁻¹) k c)
      (k+1) (c+1) (pivs ++ [c]) ∧
    (∀ v, NullVec
      (elimCol (scaleRow (swapRows M k i) k (entryM (swapRows M k i) k c)⁻¹) k c) v
      ↔ NullVec M v) := by
  obtain ⟨hki, hil, he⟩ := findPivot_some M k c i hp
  have hkl : k < M.length := Nat.lt_of_le_of_lt hki hil
  set M1 := swapRows M k i with hM1
  set e := entryM M1 k c with hedef
  set M2 := scaleRow M1 k e⁻¹ with hM2
  set M3 := elimCol M2 k c with hM3
  have hlen1 : M1.length = M.length := length_swapRows M k i
  have hlen2 : M2.length = M.length := by rw [hM2, length_scaleRow, hlen1]
  have hlen3 : M3.length = M.length := by rw [hM3, length_elimCol, hlen2]
  -- the swapped matrix: row k is the pivot row of M
  have hr1k : rowA M1 k = rowA M i := by
    rw [hM1, rowA_swapRows M k i k hkl hil]
    by_cases hik : k = i
    · rw [if_pos hik, hik]
    · rw [if_neg hik, if_pos rfl]
  have hr1 : ∀ t, t ≠ k → t ≠ i → rowA M1 t = rowA M t := by
    intro t htk hti
    by_cases htl : t < M.length
    · rw [hM1, rowA_swapRows M k i t hkl hil, if_neg hti, if_neg htk]
    · rw [rowA_ge M t (Nat.le_of_not_lt htl),
        rowA_ge M1 t (by rw [hlen1]; exact Nat.le_of_not_lt htl)]
  have hr1i : rowA M1 i = rowA M k := by
    rw [hM1, rowA_swapRows M k i i hkl hil]
    by_cases hik : i = k
    · rw [hik]; simp
    · rw [if_pos rfl]
  have hee : e = entryM M i c := by rw [hedef, entryM, hr1k]; rfl
  have he0 : e ≠ 0 := by rw [hee]; exact he
  -- entries of the scaled matrix
  have hr2k : rowA M2 k = (rowA M i).map (fun x => e⁻¹ * x) := by
    rw [hM2, rowA_scaleRow_self M1 k e⁻¹ (by rw [hlen1]; exact hkl), hr1k]
  have hE2k : ∀ j, entryM M2 k j = e⁻¹ * entryM M i j := by
    intro j
    rw [entryM, hr2k, nthD_map_mul]
    rfl
  have hE2kc : entryM M2 k c = 1 := by
    rw [hE2k, ← hee, inv_mul_cancel₀ he0]
  have hr2 : ∀ t, t ≠ k → rowA M2 t = rowA M1 t := by
    intro t htk
    rw [hM2, rowA_scaleRow_ne M1 k t e⁻¹ (fun h => htk h.symm)]
  -- rows at or below the pivot zone of M2 vanish on processed columns
  have hF1 : ∀ t, k ≤ t → ∀ j, j < c → entryM M2 t j = 0 := by
    intro t hkt j hjc
    by_cases htk : t = k
    · subst htk
      rw [hE2k, inv.hzero i hki j hjc, mul_zero]
    · rw [entryM, hr2 t htk]
      by_cases hti : t = i
      · subst hti
        rw [hr1i]
        exact inv.hzero k (Nat.le_refl k) j hjc
      · rw [hr1 t htk hti]
        exact inv.hzero t hkt j hjc
  -- rows above the pivot zone are untouched by the swap and the scaling
  have hF2 : ∀ a, a < k → ∀ j, entryM M2 a j = entryM M a j := by
    intro a hak j
    rw [entryM, hr2 a (Nat.ne_of_lt hak),
      hr1 a (Nat.ne_of_lt hak) (Nat.ne_of_lt (Nat.lt_of_lt_of_le hak hki))]
    rfl
  have hrows2 : ∀ r ∈ M2, r.length = ncols := by
    apply rows_length_scaleRow M1 k e⁻¹ ncols (by rw [hlen1]; exact hkl)
    exact rows_length_swapRows M k i ncols hkl hil inv.hrows
  have hrows3 : ∀ r ∈ M3, r.length = ncols :=
    rows_length_elimCol M2 k c ncols (by rw [hlen2]; exact hkl) hrows2
  -- entries of the eliminated matrix
  have hE3 : ∀ t, t < M.length → ∀ j, entryM M3 t j =
      if t = k then entryM M2 t j
      else entryM M2 t j - entryM M2 t c * entryM M2 k j := by
    intro t htl j
    rw [entryM, hM3, rowA_elimCol M2 k c t (by rw [hlen2]; exact htl)]
    by_cases htk : t = k
    · rw [if_pos htk, if_pos htk]
      rfl
    · rw [if_neg htk, if_neg htk,
        nthD_zipWith_sub _ _ _ (by
          rw [List.length_map, hrows2 _ (rowA_mem M2 t (by rw [hlen2]; exact htl)),
            hrows2 _ (rowA_mem M2 k (by rw [hlen2]; exact hkl))]),
        nthD_map_mul]
      rfl
  refine ⟨⟨hrows3, by simp [inv.hk], by rw [hlen3]; omega, ?_, ?_, ?_, ?_⟩, ?_⟩
  · intro p hpmem
    rcases List.mem_append.1 hpmem with hpmem | hpmem
    · exact Nat.lt_succ_of_lt (inv.hplt p hpmem)
    · simp at hpmem
      omega
  · rw [List.nodup_append]
    exact ⟨inv.hnodup, List.nodup_singleton c,
      fun a hamem hamem' => by
        simp at hamem'
        exact absurd (inv.hplt a hamem) (by omega)⟩
  · -- the identity block on pivot columns
    intro a b hak1 hbk1
    have hblen : b < k → nthD (pivs ++ [c]) b 0 = nthD pivs b 0 := by
      intro hbk
      exact nthD_append_lt pivs [c] b 0 (by rw [inv.hk]; exact hbk)
    by_cases hbk : b < k
    · rw [hblen hbk]
      set p := nthD pivs b 0 with hpdef
      have hpc : p < c := inv.hplt p (nthD_mem pivs b 0 (by rw [inv.hk]; exact hbk))
      by_cases hak : a < k
      · rw [hE3 a (Nat.lt_of_lt_of_le hak (Nat.le_of_lt hkl)) p,
          if_neg (Nat.ne_of_lt hak), hF2 a hak, hF1 k (Nat.le_refl k) p hpc, mul_zero,
          sub_zero, inv.hdelta a b hak hbk]
      · have hakk : a = k := by omega
        subst hakk
        rw [hE3 a hkl p, if_pos rfl, hF1 a (Nat.le_refl a) p hpc]
        rw [if_neg (by omega)]
    · have hbkk : b = k := by omega
      have hbc : nthD (pivs ++ [c]) b 0 = c := by
        rw [hbkk, ← inv.hk, ← Nat.add_zero pivs.length, nthD_append_right]
        rfl
      rw [hbc]
      by_cases hak : a < k
      · rw [hE3 a (Nat.lt_of_lt_of_le hak (Nat.le_of_lt hkl)) c,
          if_neg (Nat.ne_of_lt hak), hE2kc, mul_one, sub_self]
        rw [if_neg (by omega)]
      · have hakk : a = k := by omega
        rw [hE3 a (by omega) c, if_pos hakk, hakk, hE2kc, if_pos (by omega)]
  · -- processed columns vanish at or below the new pivot zone
    intro t hkt j hjc
    by_cases htl : t < M.length
    · have htk : t ≠ k := by omega
      rw [hE3 t htl j, if_neg htk]
      by_cases hjx : j < c
      · rw [hF1 t (by omega) j hjx, hF1 k (Nat.le_refl k) j hjx, mul_zero, sub_zero]
      · have hjcc : j = c := by omega
        subst hjcc
        rw [hE2kc, mul_one, sub_self]
    · rw [entryM, rowA_ge M3 t (by rw [hlen3]; exact Nat.le_of_not_lt htl)]
      simp
  · -- the three elementary operations preserve the solution set
    intro v
    rw [hM3, nullVec_elimCol M2 v k c ncols (by rw [hlen2]; exact hkl) hrows2,
      hM2, nullVec_scaleRow M1 v k e⁻¹ (by rw [hlen1]; exact hkl) (inv_ne_zero he0),
      hM1, nullVec_swapRows M v k i hkl hil]

theorem rrefGo_spec (ncols : Nat) (m : Nat) :
    ∀ M k c pivs, RrefInv ncols M k c pivs → c + m = ncols →
    RrefInv ncols (rrefGo M k (List.range' c m) pivs).1
        (rrefGo M k (List.range' c m) pivs).2.length ncols
        (rrefGo M k (List.range' c m) pivs).2 ∧
    (∀ v, NullVec (rrefGo M k (List.range' c m) pivs).1 v ↔ NullVec M v) := by
  induction m with
  | zero =>
    intro M k c pivs inv hcm
    obtain rfl : c = ncols := by omega
    obtain ⟨hrows, hk, hkle, hplt, hnodup, hdelta, hzero⟩ := inv
    subst hk
    exact ⟨⟨hrows, rfl, hkle, hplt, hnodup, hdelta, hzero⟩, fun v => Iff.rfl⟩
  | succ m ih =>
    intro M k c pivs inv hcm
    rw [List.range'_succ]
    cases hfp : findPivot M k c with
    | none =>
      have inv' : RrefInv ncols M k (c+1) pivs :=
        ⟨inv.hrows, inv.hk, inv.hkle, fun p hp => Nat.lt_succ_of_lt (inv.hplt p hp),
          inv.hnodup, inv.hdelta, by
            intro t hkt j hjc
            by_cases hjx : j < c
            · exact inv.hzero t hkt j hjx
            · have : j = c := by omega
              subst this
              exact findPivot_none M k j hfp t hkt⟩
      have res := ih M k (c+1) pivs inv' (by omega)
      simpa only [rrefGo, hfp] using res
    | some i =>
      have step := rrefStep ncols M k c i pivs inv hfp
      have res := ih _ (k+1) (c+1) (pivs ++ [c]) step.1 (by omega)
      refine ⟨?_, ?_⟩
      · simpa only [rrefGo, hfp] using res.1
      · intro v
        have h1 := res.2 v
        have h2 := step.2 v
        simp only [rrefGo, hfp]
        exact h1.trans h2

/-! ### Null-space basis construction (sympy's `Matrix.nullspace`) -/

/-- Walk the pivot list (with its positional row index `b`), subtracting the
reduced matrix entry `R[b][f]` from the vector at each pivot column. -/
def buildVecGo (vec : List ℚ) (pivs : List Nat) (b : Nat) (R : List (List ℚ))
    (f : Nat) : List ℚ :=
  match pivs with
  | [] => vec
  | p :: rest => buildVecGo (setAt vec p (nthD vec p 0 - entryM R b f)) rest (b+1) R f

/-- The null-space basis vector attached to the free column `f`: one at `f`,
minus the reduced matrix's `f` column at the pivot columns, zero elsewhere. -/
def buildVec (R : List (List ℚ)) (pivs : List Nat) (ncols f : Nat) : List ℚ :=
  buildVecGo (setAt (List.replicate ncols (0:ℚ)) f 1) pivs 0 R f

/-- The columns that did not receive a pivot, in increasing order. -/
def freeCols (pivs : List Nat) (ncols : Nat) : List Nat :=
  (List.range ncols).filter (fun j => decide (j ∉ pivs))

/-- Null-space basis of `M` (one vector per free column of the reduced form),
as computed by sympy's `Matrix.nullspace`. -/
def nullspaceL (M : List (List ℚ)) (ncols : Nat) : List (List ℚ) :=
  (freeCols (rrefL M ncols).2 ncols).map
    (fun f => buildVec (rrefL M ncols).1 (rrefL M ncols).2 ncols f)

theorem length_buildVecGo (vec : List ℚ) (pivs : List Nat) (b : Nat)
    (R : List (List ℚ)) (f : Nat) :
    (buildVecGo vec pivs b R f).length = vec.length := by
  induction pivs generalizing vec b with
  | nil => rfl
  | cons p rest ih =>
    rw [buildVecGo, ih, length_setAt]

theorem nthD_buildVecGo_notmem (vec : List ℚ) (pivs : List Nat) (b : Nat)
    (R : List (List ℚ)) (f j : Nat) (hj : j ∉ pivs) :
    nthD (buildVecGo vec pivs b R f) j 0 = nthD vec j 0 := by
  induction pivs generalizing vec b with
  | nil => rfl
  | cons p rest ih =>
    rw [buildVecGo, ih _ _ (fun hr => hj (List.mem_cons_of_mem _ hr)),
      nthD_setAt_ne _ _ _ _ _
        (fun hpj => hj (by rw [← hpj]; exact List.mem_cons_self _ _))]

theorem nthD_buildVecGo_pivot (vec : List ℚ) (pivs : List Nat) (b : Nat)
    (R : List (List ℚ)) (f : Nat) (hnd : pivs.Nodup)
    (hlt : ∀ p ∈ pivs, p < vec.length) (t : Nat) (ht : t < pivs.length) :
    nthD (buildVecGo vec pivs b R f) (nthD pivs t 0) 0 =
      nthD vec (nthD pivs t 0) 0 - entryM R (b + t) f := by
  induction pivs generalizing vec b t with
  | nil => simp at ht
  | cons p rest ih =>
    have hpr : p ∉ rest := (List.nodup_cons.1 hnd).1
    cases t with
    | zero =>
      rw [nthD_cons_zero, buildVecGo, nthD_buildVecGo_notmem _ _ _ _ _ _ hpr,
        nthD_setAt_eq _ _ _ _ (hlt p (List.mem_cons_self _ _)), Nat.add_zero]
    | succ t =>
      have htr : t < rest.length := by simpa using ht
      have hq : nthD rest t 0 ∈ rest := nthD_mem rest t 0 htr
      rw [nthD_cons_succ, buildVecGo,
        ih _ _ (List.nodup_cons.1 hnd).2
          (fun q hq' => by rw [length_setAt]; exact hlt q (List.mem_cons_of_mem _ hq'))
          t htr,
        nthD_setAt_ne _ _ _ _ _ (fun hpq => hpr (by rw [hpq]; exact hq))]
      have hbt : b + 1 + t = b + (t + 1) := by omega
      rw [hbt]

theorem nthD_replicate_zero (n j : Nat) : nthD (List.replicate n (0:ℚ)) j 0 = 0 := by
  induction n generalizing j with
  | zero => simp
  | succ n ih =>
    cases j with
    | zero => simp [List.replicate]
    | succ j => simpa [List.replicate] using ih j

theorem length_buildVec (R : List (List ℚ)) (pivs : List Nat) (ncols f : Nat) :
    (buildVec R pivs ncols f).length = ncols := by
  rw [buildVec, length_buildVecGo, length_setAt, List.length_replicate]

theorem buildVec_at_free (R : List (List ℚ)) (pivs : List Nat) (ncols f : Nat)
    (hf : f < ncols) (hfp : f ∉ pivs) :
    nthD (buildVec R pivs ncols f) f 0 = 1 := by
  rw [buildVec, nthD_buildVecGo_notmem _ _ _ _ _ _ hfp,
    nthD_setAt_eq _ _ _ _ (by rw [List.length_replicate]; exact hf)]

theorem buildVec_at_pivot (R : List (List ℚ)) (pivs : List Nat) (ncols f : Nat)
    (hnd : pivs.Nodup) (hplt : ∀ p ∈ pivs, p < ncols) (hfp : f ∉ pivs)
    (t : Nat) (ht : t < pivs.length) :
    nthD (buildVec R pivs ncols f) (nthD pivs t 0) 0 = - entryM R t f := by
  rw [buildVec, nthD_buildVecGo_pivot _ _ _ _ _ hnd
    (fun p hp => by rw [length_setAt, List.length_replicate]; exact hplt p hp) t ht,
    nthD_setAt_ne _ _ _ _ _
      (fun hfq => hfp (by rw [hfq]; exact nthD_mem pivs t 0 ht)),
    nthD_replicate_zero, Nat.zero_add, zero_sub]

theorem buildVec_at_other (R : List (List ℚ)) (pivs : List Nat) (ncols f j : Nat)
    (hjp : j ∉ pivs) (hjf : j ≠ f) :
    nthD (buildVec R pivs ncols f) j 0 = 0 := by
  rw [buildVec, nthD_buildVecGo_notmem _ _ _ _ _ _ hjp,
    nthD_setAt_ne _ _ _ _ _ (fun hfj => hjf hfj.symm), nthD_replicate_zero]

theorem mem_freeCols (pivs : List Nat) (ncols j : Nat) :
    j ∈ freeCols pivs ncols ↔ j < ncols ∧ j ∉ pivs := by
  rw [freeCols, List.mem_filter, List.mem_range, decide_eq_true_eq]

theorem nodup_freeCols (pivs : List Nat) (ncols : Nat) : (freeCols pivs ncols).Nodup :=
  (List.nodup_range ncols).filter _

theorem toFinset_list_range (n : Nat) : (List.range n).toFinset = Finset.range n := by
  ext j
  simp

theorem length_freeCols (pivs : List Nat) (ncols : Nat) (hnd : pivs.Nodup)
    (hplt : ∀ p ∈ pivs, p < ncols) :
    (freeCols pivs ncols).length + pivs.length = ncols := by
  have h1 : (freeCols pivs ncols).length = (freeCols pivs ncols).toFinset.card :=
    (List.toFinset_card_of_nodup (nodup_freeCols pivs ncols)).symm
  have h2 : (freeCols pivs ncols).toFinset =
      (Finset.range ncols).filter (fun j => j ∉ pivs) := by
    rw [freeCols, List.toFinset_filter, toFinset_list_range]
    ext j
    simp
  have h3 : (Finset.range ncols).filter (fun j => j ∈ pivs) = pivs.toFinset := by
    ext j
    simp only [Finset.mem_filter, Finset.mem_range, List.mem_toFinset]
    exact ⟨fun h => h.2, fun h => ⟨hplt j h, h⟩⟩
  have h4 := Finset.filter_card_add_filter_neg_card_eq_card
    (s := Finset.range ncols) (fun j => j ∈ pivs)
  rw [h3, List.toFinset_card_of_nodup hnd] at h4
  rw [h1, h2]
  conv at h4 => rw [Nat.add_comm]
  simpa using h4

theorem rrefL_spec (M : List (List ℚ)) (ncols : Nat)
    (hrows : ∀ r ∈ M, r.length = ncols) :
    RrefInv ncols (rrefL M ncols).1 (rrefL M ncols).2.length ncols (rrefL M ncols).2 ∧
    (∀ v, NullVec (rrefL M ncols).1 v ↔ NullVec M v) := by
  have inv0 : RrefInv ncols M 0 0 [] :=
    ⟨hrows, rfl, Nat.zero_le _, by simp, List.nodup_nil,
      fun a b ha _ => absurd ha (Nat.not_lt_zero a),
      fun i _ j hj => absurd hj (Nat.not_lt_zero j)⟩
  have h := rrefGo_spec ncols ncols M 0 0 [] inv0 (Nat.zero_add ncols)
  rw [← List.range_eq_range'] at h
  exact h

theorem sum_nodup_list_eq_sum_range (l : List Nat) (g : Nat → ℚ) (hnd : l.Nodup) :
    ∑ x ∈ l.toFinset, g x = ∑ t ∈ Finset.range l.length, g (nthD l t 0) := by
  induction l with
  | nil => simp
  | cons p rest ih =>
    rw [List.toFinset_cons, Finset.sum_insert (by
      simpa using (List.nodup_cons.1 hnd).1)]
    rw [List.length_cons, Finset.sum_range_succ']
    simp only [nthD_cons_succ, nthD_cons_zero]
    rw [ih (List.nodup_cons.1 hnd).2]
    exact add_comm _ _

theorem dot_row_buildVec (R : List (List ℚ)) (pivs : List Nat) (ncols f i : Nat)
    (hnd : pivs.Nodup) (hplt : ∀ p ∈ pivs, p < ncols) (hf : f < ncols)
    (hfp : f ∉ pivs)
    (hdelta : ∀ a b : Nat, a < pivs.length → b < pivs.length →
      entryM R a (nthD pivs b 0) = if a = b then 1 else 0)
    (hi : i < pivs.length) :
    ∑ j ∈ Finset.range ncols,
      entryM R i j * nthD (buildVec R pivs ncols f) j 0 = 0 := by
  have hfpf : f ∉ pivs.toFinset := by simpa using hfp
  have hsub : insert f pivs.toFinset ⊆ Finset.range ncols := by
    intro x hx
    rcases Finset.mem_insert.1 hx with hx | hx
    · exact Finset.mem_range.2 (hx ▸ hf)
    · exact Finset.mem_range.2 (hplt x (List.mem_toFinset.1 hx))
  have hout : ∀ j ∈ Finset.range ncols, j ∉ insert f pivs.toFinset →
      entryM R i j * nthD (buildVec R pivs ncols f) j 0 = 0 := by
    intro j _ hj
    rw [buildVec_at_other R pivs ncols f j
      (fun hjp => hj (Finset.mem_insert_of_mem (List.mem_toFinset.2 hjp)))
      (fun hjf => hj (hjf ▸ Finset.mem_insert_self _ _)), mul_zero]
  rw [← Finset.sum_subset hsub hout, Finset.sum_insert hfpf,
    buildVec_at_free R pivs ncols f hf hfp, mul_one,
    sum_nodup_list_eq_sum_range pivs _ hnd]
  have hterm : ∀ t ∈ Finset.range pivs.length,
      entryM R i (nthD pivs t 0) * nthD (buildVec R pivs ncols f) (nthD pivs t 0) 0 =
      (if i = t then 1 else 0) * (- entryM R t f) := by
    intro t ht
    rw [hdelta i t hi (Finset.mem_range.1 ht),
      buildVec_at_pivot R pivs ncols f hnd hplt hfp t (Finset.mem_range.1 ht)]
  rw [Finset.sum_congr rfl hterm]
  simp [ite_mul, Finset.sum_ite_eq, hi]

/-- Every vector produced by the null-space construction solves the original
homogeneous system: the reduced rows annihilate it by the pivot/free split,
and row reduction preserved the solution set. -/
theorem nullspaceL_nullVec (M : List (List ℚ)) (ncols : Nat)
    (hrows : ∀ r ∈ M, r.length = ncols) :
    ∀ b ∈ nullspaceL M ncols, NullVec M b ∧ b.length = ncols := by
  obtain ⟨inv, hpres⟩ := rrefL_spec M ncols hrows
  intro b hb
  rcases List.mem_map.1 hb with ⟨f, hfmem, hbeq⟩
  rcases (mem_freeCols _ _ _).1 hfmem with ⟨hf, hfp⟩
  subst hbeq
  set R := (rrefL M ncols).1 with hR
  set pivs := (rrefL M ncols).2 with hP
  refine ⟨(hpres _).1 ?_, length_buildVec R pivs ncols f⟩
  intro i
  by_cases hi : i < pivs.length
  · have hrlen : (rowA R i).length = ncols :=
      inv.hrows _ (rowA_mem R i (Nat.lt_of_lt_of_le hi inv.hkle))
    rw [dotL_eq_sum _ _ ncols hrlen (length_buildVec R pivs ncols f)]
    exact dot_row_buildVec R pivs ncols f i inv.hnodup inv.hplt hf hfp inv.hdelta hi
  · by_cases hil : i < R.length
    · have hrlen : (rowA R i).length = ncols := inv.hrows _ (rowA_mem R i hil)
      rw [dotL_eq_sum _ _ ncols hrlen (length_buildVec R pivs ncols f)]
      apply Finset.sum_eq_zero
      intro j hj
      have hz := inv.hzero i (Nat.le_of_not_lt hi) j (Finset.mem_range.1 hj)
      rw [entryM] at hz
      rw [hz, zero_mul]
    · rw [rowA_ge R i (Nat.le_of_not_lt hil)]
      simp

/-- The null-space basis has exactly `ncols - rank` vectors: one per free
column. -/
theorem length_nullspaceL (M : List (List ℚ)) (ncols : Nat)
    (hrows : ∀ r ∈ M, r.length = ncols) :
    (nullspaceL M ncols).length + (rrefL M ncols).2.length = ncols := by
  obtain ⟨inv, _⟩ := rrefL_spec M ncols hrows
  rw [nullspaceL, List.length_map]
  exact length_freeCols _ ncols inv.hnodup inv.hplt

theorem rank_le_ncols (M : List (List ℚ)) (ncols : Nat)
    (hrows : ∀ r ∈ M, r.length = ncols) :
    (rrefL M ncols).2.length ≤ ncols := by
  have h := length_nullspaceL M ncols hrows
  omega

/-! ### The executable rank as a linear-algebra invariant -/

theorem nthD_eq_get (l : List α) (t : Nat) (d : α) (h : t < l.length) :
    nthD l t d = l.get ⟨t, h⟩ := by
  induction l generalizing t with
  | nil => simp at h
  | cons a rest ih =>
    cases t with
    | zero => rfl
    | succ t => simpa using ih t (by simpa using h)

theorem mem_nthD_index (l : List Nat) (j : Nat) (h : j ∈ l) :
    ∃ t, t < l.length ∧ nthD l t 0 = j := by
  induction l with
  | nil => simp at h
  | cons a rest ih =>
    rcases List.mem_cons.1 h with h | h
    · exact ⟨0, by simp, h.symm⟩
    · rcases ih h with ⟨t, ht, hv⟩
      exact ⟨t+1, by simpa using ht, by simpa using hv⟩

theorem nthD_ne_of_nodup (l : List α) (d : α) (hnd : l.Nodup) (t s : Nat)
    (ht : t < l.length) (hs : s < l.length) (hne : t ≠ s) :
    nthD l t d ≠ nthD l s d := by
  induction l generalizing t s with
  | nil => simp at ht
  | cons a rest ih =>
    obtain ⟨hninr, hndr⟩ := List.nodup_cons.1 hnd
    cases t with
    | zero =>
      cases s with
      | zero => exact absurd rfl hne
      | succ s =>
        simp only [nthD_cons_zero, nthD_cons_succ]
        intro hEq
        exact hninr (by rw [hEq]; exact nthD_mem rest s d (by simpa using hs))
    | succ t =>
      cases s with
      | zero =>
        simp only [nthD_cons_zero, nthD_cons_succ]
        intro hEq
        exact hninr (by rw [← hEq]; exact nthD_mem rest t d (by simpa using ht))
      | succ s =>
        simp only [nthD_cons_succ]
        exact ih hndr t s (by simpa using ht) (by simpa using hs)
          (fun hE => hne (by rw [hE]))

theorem nthD_ofFn {n : Nat} (x : Fin n → α) (j : Nat) (d : α) (h : j < n) :
    nthD (List.ofFn x) j d = x ⟨j, h⟩ := by
  induction n generalizing j with
  | zero => simp at h
  | succ n ih =>
    rw [List.ofFn_succ]
    cases j with
    | zero => rfl
    | succ j => exact ih (fun i => x i.succ) j (by omega)

/-- A list vector as a function on `Fin n` coordinates. -/
def vecFn (n : Nat) (b : List ℚ) : Fin n → ℚ := fun j => nthD b (j : Nat) 0

/-- The linear map `x ↦ M·x` of a matrix stored as a row list, with
codomain `Fin D → ℚ` (entries outside the stored rows are zero). -/
def matLin (M : List (List ℚ)) (D n : Nat) : (Fin n → ℚ) →ₗ[ℚ] (Fin D → ℚ) where
  toFun x := fun i => ∑ j : Fin n, entryM M (i : Nat) (j : Nat) * x j
  map_add' x y := by
    funext i
    simp only [Pi.add_apply]
    rw [← Finset.sum_add_distrib]
    exact Finset.sum_congr rfl (fun j _ => by ring)
  map_smul' a x := by
    funext i
    simp only [Pi.smul_apply, smul_eq_mul, RingHom.id_apply]
    rw [Finset.mul_sum]
    exact Finset.sum_congr rfl (fun j _ => by ring)

theorem matLin_apply (M : List (List ℚ)) (D n : Nat) (x : Fin n → ℚ) (i : Fin D) :
    matLin M D n x i = ∑ j : Fin n, entryM M (i : Nat) (j : Nat) * x j := rfl

theorem matLin_vecFn_dot (M : List (List ℚ)) (D n : Nat)
    (hrows : ∀ r ∈ M, r.length = n) (b : List ℚ) (hb : b.length = n) (i : Fin D) :
    matLin M D n (vecFn n b) i = dotL (rowA M (i : Nat)) b := by
  by_cases hi : (i : Nat) < M.length
  · rw [dotL_eq_sum _ _ n (hrows _ (rowA_mem M _ hi)) hb, matLin_apply,
      ← Fin.sum_univ_eq_sum_range (fun j => nthD (rowA M (i : Nat)) j 0 * nthD b j 0) n]
    rfl
  · rw [rowA_ge M _ (Nat.le_of_not_lt hi), matLin_apply]
    rw [show dotL [] b = 0 from rfl]
    apply Finset.sum_eq_zero
    intro j _
    rw [entryM, rowA_ge M _ (Nat.le_of_not_lt hi)]
    simp

theorem matLin_zero_iff (M : List (List ℚ)) (D n : Nat) (hD : M.length ≤ D)
    (hrows : ∀ r ∈ M, r.length = n) (b : List ℚ) (hb : b.length = n) :
    matLin M D n (vecFn n b) = 0 ↔ NullVec M b := by
  constructor
  · intro h i
    by_cases hi : i < M.length
    · have hiD : i < D := Nat.lt_of_lt_of_le hi hD
      have hc := congrFun h ⟨i, hiD⟩
      rw [matLin_vecFn_dot M D n hrows b hb ⟨i, hiD⟩] at hc
      simpa using hc
    · rw [rowA_ge M i (Nat.le_of_not_lt hi)]
      simp
  · intro h
    funext i
    rw [matLin_vecFn_dot M D n hrows b hb i]
    simpa using h (i : Nat)

/-- The pivot count of the executable reduction is the rank of the matrix in
the Mathlib sense: the dimension of the range of its linear map. The
constructed null-space family is linearly independent and spans the kernel,
so nullity is the number of free columns, and rank-nullity does the rest. -/
theorem rankL_eq_finrank_range (M : List (List ℚ)) (n D : Nat)
    (hrows : ∀ r ∈ M, r.length = n) (hD : M.length ≤ D) :
    Module.finrank ℚ (LinearMap.range (matLin M D n)) = (rrefL M n).2.length := by
  obtain ⟨inv, hpres⟩ := rrefL_spec M n hrows
  have hcount := length_nullspaceL M n hrows
  rw [nullspaceL, List.length_map] at hcount
  set R := (rrefL M n).1 with hR
  set pivs := (rrefL M n).2 with hP
  set free := freeCols pivs n with hfreedef
  set m := free.length with hm
  have hfree_mem : ∀ t, t < m → nthD free t 0 < n ∧ nthD free t 0 ∉ pivs := by
    intro t ht
    exact (mem_freeCols pivs n _).1 (nthD_mem free t 0 ht)
  set w : Fin m → (Fin n → ℚ) :=
    fun idx => vecFn n (buildVec R pivs n (nthD free (idx : Nat) 0)) with hw
  have hbuilt_len : ∀ f, (buildVec R pivs n f).length = n :=
    fun f => length_buildVec R pivs n f
  -- each member of the family solves the system
  have hker : ∀ idx, w idx ∈ LinearMap.ker (matLin M D n) := by
    intro idx
    rw [LinearMap.mem_ker, hw]
    have hmem : buildVec R pivs n (nthD free (idx : Nat) 0) ∈ nullspaceL M n := by
      rw [nullspaceL, ← hR, ← hP, ← hfreedef]
      exact List.mem_map_of_mem _ (nthD_mem free (idx : Nat) 0 idx.isLt)
    obtain ⟨hnv, hlen⟩ := nullspaceL_nullVec M n hrows _ hmem
    exact (matLin_zero_iff M D n hD hrows _ hlen).2 hnv
  -- coordinates of the family at free columns form an identity pattern
  have hval : ∀ idx idx' : Fin m,
      w idx' ⟨nthD free (idx : Nat) 0, (hfree_mem idx idx.isLt).1⟩ =
        if idx' = idx then 1 else 0 := by
    intro idx idx'
    rw [hw]
    by_cases heq : idx' = idx
    · rw [if_pos heq, heq]
      exact buildVec_at_free R pivs n _ (hfree_mem idx idx.isLt).1
        (hfree_mem idx idx.isLt).2
    · rw [if_neg heq]
      apply buildVec_at_other R pivs n _ _ (hfree_mem idx idx.isLt).2
      intro hEq
      exact nthD_ne_of_nodup free 0 (nodup_freeCols pivs n) idx idx'
        idx.isLt idx'.isLt (fun hE => heq (Fin.ext hE.symm)) hEq
  -- linear independence
  have hindep : LinearIndependent ℚ w := by
    rw [Fintype.linearIndependent_iff]
    intro g hg idx
    have hc := congrFun hg ⟨nthD free (idx : Nat) 0, (hfree_mem idx idx.isLt).1⟩
    rw [Finset.sum_apply] at hc
    simp only [Pi.smul_apply, smul_eq_mul, Pi.zero_apply] at hc
    have hc2 : ∑ idx' : Fin m, g idx' * (if idx' = idx then 1 else 0) = 0 :=
      (Finset.sum_congr rfl (fun idx' _ => by rw [hval idx idx'])).trans hc
    simpa [mul_ite, Finset.sum_ite_eq'] using hc2
  -- the function-level transcript of a kernel element
  have hspan : Submodule.span ℚ (Set.range w) = LinearMap.ker (matLin M D n) := by
    apply le_antisymm
    · rw [Submodule.span_le]
      rintro y ⟨idx, rfl⟩
      exact hker idx
    · intro x hx
      set xf : Nat → ℚ := fun j => nthD (List.ofFn x) j 0 with hxf
      have hxfx : ∀ (j : Nat) (h : j < n), xf j = x ⟨j, h⟩ := by
        intro j h
        rw [hxf]
        exact nthD_ofFn x j 0 h
      have hxl : vecFn n (List.ofFn x) = x := by
        funext j
        rw [vecFn, nthD_ofFn x _ 0 j.isLt]
      have hnvM : NullVec M (List.ofFn x) := by
        refine (matLin_zero_iff M D n hD hrows _ (by simp)).1 ?_
        rw [hxl]
        exact LinearMap.mem_ker.1 hx
      have hnvR : NullVec R (List.ofFn x) := (hpres _).2 hnvM
      have hsplit : pivs.toFinset ∪ free.toFinset = Finset.range n := by
        ext j
        simp only [Finset.mem_union, List.mem_toFinset, Finset.mem_range, hfreedef,
          mem_freeCols]
        constructor
        · rintro (hj | hj)
          · exact inv.hplt j hj
          · exact hj.1
        · intro hj
          by_cases hjp : j ∈ pivs
          · exact Or.inl hjp
          · exact Or.inr ⟨hj, hjp⟩
      have hdisj : Disjoint pivs.toFinset free.toFinset := by
        rw [Finset.disjoint_left]
        intro j hj hj'
        rw [List.mem_toFinset] at hj hj'
        exact ((mem_freeCols pivs n j).1 hj').2 hj
      -- the pivot coordinates of x in terms of its free coordinates
      have hrowEq : ∀ t, t < pivs.length →
          xf (nthD pivs t 0) =
            - ∑ idx : Fin m, entryM R t (nthD free (idx : Nat) 0) *
                xf (nthD free (idx : Nat) 0) := by
        intro t ht
        have hdot := hnvR t
        have hrlen : (rowA R t).length = n :=
          inv.hrows _ (rowA_mem R t (Nat.lt_of_lt_of_le ht inv.hkle))
        rw [dotL_eq_sum _ _ n hrlen (by simp)] at hdot
        have hsum : ∑ j ∈ Finset.range n, entryM R t j * xf j = 0 := by
          rw [← hdot]
          exact Finset.sum_congr rfl (fun j _ => rfl)
        rw [← hsplit, Finset.sum_union hdisj,
          sum_nodup_list_eq_sum_range pivs _ inv.hnodup,
          sum_nodup_list_eq_sum_range free _ (nodup_freeCols pivs n)] at hsum
        have hpiv : ∑ s ∈ Finset.range pivs.length,
            entryM R t (nthD pivs s 0) * xf (nthD pivs s 0) = xf (nthD pivs t 0) := by
          have hterm : ∀ s ∈ Finset.range pivs.length,
              entryM R t (nthD pivs s 0) * xf (nthD pivs s 0) =
                (if t = s then 1 else 0) * xf (nthD pivs s 0) := by
            intro s hs
            rw [inv.hdelta t s ht (Finset.mem_range.1 hs)]
          rw [Finset.sum_congr rfl hterm]
          simp [ite_mul, Finset.sum_ite_eq, ht]
        rw [hpiv, ← Fin.sum_univ_eq_sum_range
          (fun idx => entryM R t (nthD free idx 0) * xf (nthD free idx 0)) m] at hsum
        linarith [hsum]
      -- x decomposes over the family
      have hdecomp : x = ∑ idx : Fin m, xf (nthD free (idx : Nat) 0) • w idx := by
        funext j
        rw [Finset.sum_apply]
        by_cases hjp : (j : Nat) ∈ pivs
        · obtain ⟨t, ht, hjt⟩ := mem_nthD_index pivs (j : Nat) hjp
          have hstep : ∀ idx : Fin m, (xf (nthD free (idx : Nat) 0) • w idx) j =
              entryM R t (nthD free (idx : Nat) 0) * xf (nthD free (idx : Nat) 0) *
                (-1) := by
            intro idx
            have hcoord : w idx j = - entryM R t (nthD free (idx : Nat) 0) := by
              rw [hw]
              show vecFn n (buildVec R pivs n (nthD free (idx : Nat) 0)) j =
                - entryM R t (nthD free (idx : Nat) 0)
              rw [vecFn]
              have hj' : (j : Nat) = nthD pivs t 0 := hjt.symm
              rw [hj']
              exact buildVec_at_pivot R pivs n _ inv.hnodup inv.hplt
                (hfree_mem idx idx.isLt).2 t ht
            rw [Pi.smul_apply, smul_eq_mul, hcoord]
            ring
          rw [Finset.sum_congr rfl (fun idx _ => hstep idx), ← Finset.sum_mul]
          have hx_j : x j = xf (nthD pivs t 0) := by
            rw [hxfx _ (by rw [hjt]; exact j.isLt)]
            congr 1
            exact Fin.ext hjt.symm
          rw [hx_j, hrowEq t ht]
          ring
        · have hjf : (j : Nat) ∈ free := by
            rw [hfreedef, mem_freeCols]
            exact ⟨j.isLt, hjp⟩
          obtain ⟨t, ht, hjt⟩ := mem_nthD_index free (j : Nat) hjf
          have hstep : ∀ idx : Fin m, (xf (nthD free (idx : Nat) 0) • w idx) j =
              (if idx = (⟨t, ht⟩ : Fin m) then 1 else 0) *
                xf (nthD free (idx : Nat) 0) := by
            intro idx
            rw [Pi.smul_apply, smul_eq_mul]
            have hcj : w idx j = w idx ⟨nthD free t 0,
                (hfree_mem (⟨t, ht⟩ : Fin m) ht).1⟩ := by
              congr 1
              exact Fin.ext hjt.symm
            rw [hcj, hval (⟨t, ht⟩ : Fin m) idx]
            ring
          rw [Finset.sum_congr rfl (fun idx _ => hstep idx)]
          rw [show ∀ z : Fin m → ℚ, (∑ idx : Fin m,
            (if idx = (⟨t, ht⟩ : Fin m) then 1 else 0) * z idx) = z ⟨t, ht⟩ from
            fun z => by simp [ite_mul, Finset.sum_ite_eq']]
          rw [hxfx _ (by rw [hjt]; exact j.isLt)]
          congr 1
          exact Fin.ext hjt.symm
      rw [hdecomp]
      exact Submodule.sum_mem _ (fun idx _ =>
        Submodule.smul_mem _ _ (Submodule.subset_span ⟨idx, rfl⟩))
  have hkerrank : Module.finrank ℚ (LinearMap.ker (matLin M D n)) = m := by
    rw [← hspan, finrank_span_eq_card hindep, Fintype.card_fin]
  have hrn := LinearMap.finrank_range_add_finrank_ker (matLin M D n)
  rw [Module.finrank_fin_fun, hkerrank] at hrn
  omega

/-! ### The embedded source: `apply_pi_theorem` of `pi_theorem.py` -/

/-- The exceptions the source can raise: sympy's `ValueError` when
`sp.Matrix(dimensions)` receives rows of different lengths, and the explicit
`ValueError('The null space does not have the expected number of vectors.')`.
Neither value carries a variable name: the matrix constructor only ever sees
the bare exponent lists. -/
inductive PiError where
  | mismatchedDimensions : PiError
  | nullspaceMismatch : PiError
deriving DecidableEq

/-- A Pi term: the monomial `∏ variable_j ^ exponent_j` over all variables in
input order, kept as its ordered factor list (exponent zero means the variable
is absent from the displayed product). -/
structure PiTerm where
  factors : List (String × ℚ)
deriving DecidableEq

/-- The exponent list of a Pi term — its null-space basis vector. -/
def PiTerm.exponents (t : PiTerm) : List ℚ := t.factors.map Prod.snd

/-- Abstract trace of the printing the source performs when `output` is
false: the `'Dimensionless Numbers:'` header, then one pretty-printed
`Eq(Pi_i, term)` per term, numbered from 1. -/
inductive OutputEvent where
  | header : OutputEvent
  | eqLine : Nat → PiTerm → OutputEvent
deriving DecidableEq

/-- Transpose of a list-of-rows matrix (`sp.Matrix(dimensions).transpose()`);
the column count is read off the first row, as in sympy's constructor. -/
def transposeL (rows : List (List ℚ)) : List (List ℚ) :=
  (List.range (rows.head?.getD []).length).map
    (fun i => rows.map (fun r => nthD r i 0))

/-- Number of base dimensions: the length of the first variable's exponent
vector (`0` for an empty mapping). -/
def dimCount (vars : List (String × List ℚ)) : Nat :=
  ((vars.map Prod.snd).head?.getD []).length

/-- The `D × N` dimension matrix whose column `j` is variable `j`'s exponent
vector. -/
def dimMatrix (vars : List (String × List ℚ)) : List (List ℚ) :=
  transposeL (vars.map Prod.snd)

/-- sympy's rank of the dimension matrix: the number of pivot columns of its
reduced row echelon form. -/
def rankOfInput (vars : List (String × List ℚ)) : Nat :=
  (rrefL (dimMatrix vars) (vars.map Prod.fst).length).2.length

/-- The Pi terms the source computes: one per null-space basis vector, pairing
every variable name with its rational exponent in input order. -/
def computePiTerms (vars : List (String × List ℚ)) : List PiTerm :=
  (nullspaceL (dimMatrix vars) (vars.map Prod.fst).length).map
    (fun bv => PiTerm.mk ((vars.map Prod.fst).zip bv))

/-- sympy's `Matrix` constructor check on a nested list: every row must have
the first row's length, else `ValueError` (no variable name is available to
the constructor). -/
def rowsRectangular (rows : List (List ℚ)) : Bool :=
  rows.all (fun r => decide (r.length = (rows.head?.getD []).length))

/-- The embedded `apply_pi_theorem(variables, output)` of `pi_theorem.py`,
line by line: extract names and exponent lists, build the transposed
dimension matrix (sympy raises on ragged input), compute the rank, set
`pi_terms_count = n - rank` (Python `int` subtraction), compute the null
space, guard its cardinality, build the Pi terms, and either return them
(`output=True`, printing nothing) or print the header and one line per term
and return `None`. `sp.symbols(names)` is modelled as the identity on the
name strings: it only parses names, raising just for strings that are not
identifiers (e.g. the empty string), which the spec's preconditions exclude;
`sp.simplify` of a monomial over distinct symbols leaves its exponent data
unchanged, so a `PiTerm` keeps the factor list itself. -/
def apply_pi_theorem (vars : List (String × List ℚ)) (output : Bool) :
    Except PiError (Option (List PiTerm) × List OutputEvent) :=
  let names := vars.map Prod.fst
  let dimensions := vars.map Prod.snd
  let n := names.length
  if rowsRectangular dimensions then
    let dim_matrix := transposeL dimensions
    let rank := (rrefL dim_matrix n).2.length
    let pi_terms_count : Int := (n : Int) - (rank : Int)
    let null_space := nullspaceL dim_matrix n
    if (null_space.length : Int) ≠ pi_terms_count then
      Except.error PiError.nullspaceMismatch
    else
      let pi_terms := null_space.map (fun bv => PiTerm.mk (names.zip bv))
      if output then Except.ok (some pi_terms, [])
      else Except.ok (none,
        OutputEvent.header ::
          pi_terms.enum.map (fun p => OutputEvent.eqLine (p.1 + 1) p.2))
  else Except.error PiError.mismatchedDimensions

/-- Reading the mapping's keys (`list(variables.keys())`): yields the keys and
the mapping as it is afterwards. -/
def dictKeys (d : List (String × List ℚ)) : List String × List (String × List ℚ) :=
  (d.map Prod.fst, d)

/-- Reading the mapping's values (`list(variables.values())`). -/
def dictValues (d : List (String × List ℚ)) :
    List (List ℚ) × List (String × List ℚ) :=
  (d.map Prod.snd, d)

/-- `apply_pi_theorem` with the caller's mapping threaded as state: the two
accesses the source performs on `variables` are the read-only accessors
above, and the mapping visible to the caller after the call (whether it
returns or raises) is the second component. -/
def apply_pi_theorem_state (vars : List (String × List ℚ)) (output : Bool) :
    Except PiError (Option (List PiTerm) × List OutputEvent) ×
      List (String × List ℚ) :=
  let knames := dictKeys vars
  let names := knames.1
  let kvals := dictValues knames.2
  let dimensions := kvals.1
  let st := kvals.2
  let n := names.length
  (if rowsRectangular dimensions then
    let dim_matrix := transposeL dimensions
    let rank := (rrefL dim_matrix n).2.length
    let pi_terms_count : Int := (n : Int) - (rank : Int)
    let null_space := nullspaceL dim_matrix n
    if (null_space.length : Int) ≠ pi_terms_count then
      Except.error PiError.nullspaceMismatch
    else
      let pi_terms := null_space.map (fun bv => PiTerm.mk (names.zip bv))
      if output then Except.ok (some pi_terms, [])
      else Except.ok (none,
        OutputEvent.header ::
          pi_terms.enum.map (fun p => OutputEvent.eqLine (p.1 + 1) p.2))
  else Except.error PiError.mismatchedDimensions, st)

deriving instance DecidableEq for Except

/-- The spec's preconditions on the input mapping: at least one variable,
distinct nonempty names, a common exponent-vector length `D ≥ 1`, and (by the
ambient type) finite rational exponents. -/
def ValidInput (vars : List (String × List ℚ)) : Prop :=
  vars ≠ [] ∧
  0 < dimCount vars ∧
  (∀ p ∈ vars, p.2.length = dimCount vars) ∧
  (∀ p ∈ vars, p.1 ≠ "") ∧
  (vars.map Prod.fst).Nodup

instance (vars : List (String × List ℚ)) : Decidable (ValidInput vars) := by
  unfold ValidInput
  infer_instance

/-- The tip-clearance example of Chen, Greitzer, Tan and Marble (1990) used
in the source's module docstring and `__main__` block. -/
def chenInput : List (String × List ℚ) :=
  [("tau", [0, 1, 0]), ("rho", [1, -3, 0]), ("dt", [0, 0, 1]),
   ("DeltaP", [1, -1, -2]), ("Gamma", [0, 2, -1]), ("y_v", [0, 1, 0]),
   ("z_v", [0, 1, 0]), ("y_c", [0, 1, 0]), ("z_c", [0, 1, 0]),
   ("v", [0, 1, -1]), ("w", [0, 1, -1])]

theorem dimMatrix_rows_length (vars : List (String × List ℚ)) :
    ∀ r ∈ dimMatrix vars, r.length = (vars.map Prod.fst).length := by
  intro r hr
  rcases List.mem_map.1 hr with ⟨i, _, hre⟩
  rw [← hre]
  simp

theorem nullspace_count_int (vars : List (String × List ℚ)) :
    ((nullspaceL (dimMatrix vars) (vars.map Prod.fst).length).length : Int) =
      ((vars.map Prod.fst).length : Int) - (rankOfInput vars : Int) := by
  have h := length_nullspaceL (dimMatrix vars) (vars.map Prod.fst).length
    (dimMatrix_rows_length vars)
  rw [rankOfInput]
  omega

theorem apply_pi_theorem_eq (vars : List (String × List ℚ)) (output : Bool)
    (hrect : rowsRectangular (vars.map Prod.snd) = true) :
    apply_pi_theorem vars output =
      if output then Except.ok (some (computePiTerms vars), [])
      else Except.ok (none,
        OutputEvent.header ::
          (computePiTerms vars).enum.map
            (fun p => OutputEvent.eqLine (p.1 + 1) p.2)) := by
  simp only [apply_pi_theorem]
  rw [if_pos hrect, if_neg (fun hne => hne (nullspace_count_int vars))]
  rfl

theorem apply_pi_theorem_eq_ragged (vars : List (String × List ℚ)) (output : Bool)
    (hrect : ¬ rowsRectangular (vars.map Prod.snd) = true) :
    apply_pi_theorem vars output = Except.error PiError.mismatchedDimensions := by
  simp only [apply_pi_theorem]
  rw [if_neg hrect]

theorem valid_rect (vars : List (String × List ℚ)) (h : ValidInput vars) :
    rowsRectangular (vars.map Prod.snd) = true := by
  obtain ⟨-, -, hlen, -, -⟩ := h
  rw [rowsRectangular, List.all_eq_true]
  intro r hr
  rcases List.mem_map.1 hr with ⟨p, hp, hre⟩
  rw [decide_eq_true_eq, ← hre]
  exact hlen p hp

theorem exponents_mk_zip (names : List String) (bv : List ℚ)
    (h : bv.length = names.length) :
    (PiTerm.mk (names.zip bv)).exponents = bv := by
  rw [PiTerm.exponents]
  exact List.map_snd_zip names bv (Nat.le_of_eq h)

theorem computePiTerms_dimensionless (vars : List (String × List ℚ)) :
    ∀ t ∈ computePiTerms vars,
      mulVecL (dimMatrix vars) t.exponents =
        List.replicate (dimMatrix vars).length 0 := by
  intro t ht
  rcases List.mem_map.1 ht with ⟨bv, hbv, hte⟩
  obtain ⟨hnv, hbl⟩ := nullspaceL_nullVec (dimMatrix vars)
    (vars.map Prod.fst).length (dimMatrix_rows_length vars) bv hbv
  rw [← hte, exponents_mk_zip _ _ (by rw [hbl])]
  exact (nullVec_iff_mulVecL _ _).1 hnv

/-! ### The claims -/

/-- A small valid example input used by the witnesses: two variables of one
base dimension each, giving a single Pi term `x^-1 * y`. -/
def exInput : List (String × List ℚ) := [("x", [1]), ("y", [1])]

/-- C1: for every valid input mapping, the compute path
(`apply_pi_theorem(..., output=True)`) returns the Pi-term sequence, and every
returned term is dimensionless: multiplying the dimension matrix by the term's
exponent (basis) vector yields the zero dimension vector. -/
theorem claim_C1 (vars : List (String × List ℚ)) (h : ValidInput vars) :
    apply_pi_theorem vars true = Except.ok (some (computePiTerms vars), []) ∧
    ∀ t ∈ computePiTerms vars,
      mulVecL (dimMatrix vars) t.exponents =
        List.replicate (dimMatrix vars).length 0 := by
  refine ⟨?_, computePiTerms_dimensionless vars⟩
  rw [apply_pi_theorem_eq vars true (valid_rect vars h), if_pos rfl]

theorem claim_C1_witness :
    ValidInput exInput ∧
    (apply_pi_theorem exInput true = Except.ok (some (computePiTerms exInput), []) ∧
     ∀ t ∈ computePiTerms exInput,
       mulVecL (dimMatrix exInput) t.exponents =
         List.replicate (dimMatrix exInput).length 0) :=
  ⟨by decide, claim_C1 exInput (by decide)⟩

/-- C2: for every valid input with `N` variables the returned sequence has
length exactly `N - rank(dimension matrix)`, and when that count is zero the
call returns the empty sequence rather than raising. -/
theorem claim_C2 (vars : List (String × List ℚ)) (h : ValidInput vars) :
    apply_pi_theorem vars true = Except.ok (some (computePiTerms vars), []) ∧
    (computePiTerms vars).length = vars.length - rankOfInput vars ∧
    (vars.length - rankOfInput vars = 0 → computePiTerms vars = []) := by
  have hc := length_nullspaceL (dimMatrix vars) (vars.map Prod.fst).length
    (dimMatrix_rows_length vars)
  have hlen : (computePiTerms vars).length = vars.length - rankOfInput vars := by
    rw [computePiTerms, List.length_map]
    rw [rankOfInput] at *
    have hm : (vars.map Prod.fst).length = vars.length := List.length_map _ _
    omega
  refine ⟨?_, hlen, fun hz => List.length_eq_zero.1 (by rw [hlen, hz])⟩
  rw [apply_pi_theorem_eq vars true (valid_rect vars h), if_pos rfl]

theorem claim_C2_witness :
    ValidInput exInput ∧
    (apply_pi_theorem exInput true = Except.ok (some (computePiTerms exInput), []) ∧
     (computePiTerms exInput).length = exInput.length - rankOfInput exInput ∧
     (exInput.length - rankOfInput exInput = 0 → computePiTerms exInput = [])) :=
  ⟨by decide, claim_C2 exInput (by decide)⟩

/-- C3 as stated is false: the source performs no emptiness check, so an
empty mapping flows through (`sp.Matrix([])` is a 0 × 0 matrix of rank 0 with
an empty null space) and the call succeeds with the empty Pi-term sequence
instead of raising. -/
theorem claim_C3_counterexample :
    apply_pi_theorem [] true = Except.ok (some [], []) ∧
    apply_pi_theorem [] true ≠ Except.error PiError.mismatchedDimensions ∧
    apply_pi_theorem [] true ≠ Except.error PiError.nullspaceMismatch := by decide

/-- C3 amended: on a mapping with zero entries the compute operation does
not fail; it returns the empty sequence (and, on the printing path, prints
only the header). -/
theorem claim_C3 :
    apply_pi_theorem [] true = Except.ok (some [], []) ∧
    apply_pi_theorem [] false = Except.ok (none, [OutputEvent.header]) := by decide

/-- C4 as stated is false in its "naming the offending variable" part: the
error ends the call with no partial result, but it is sympy's anonymous
mismatched-dimensions `ValueError`, identical for different offending
variables (the constructor never sees the names), so it cannot name the
offender. -/
theorem claim_C4_counterexample :
    apply_pi_theorem [("x", [1, 0, 0]), ("y", [0, 1])] true =
      Except.error PiError.mismatchedDimensions ∧
    apply_pi_theorem [("a", [1, 0]), ("b", [0, 1, 0])] true =
      Except.error PiError.mismatchedDimensions ∧
    apply_pi_theorem [("x", [1, 0, 0]), ("y", [0, 1])] true =
      apply_pi_theorem [("a", [1, 0]), ("b", [0, 1, 0])] true := by decide

/-- C4 amended: if the (nonempty-named) variables' exponent vectors do not
all share the first variable's length, the call fails with the anonymous
mismatched-dimensions error (which does not name the offending variable) and
produces no partial result. -/
theorem claim_C4 (vars : List (String × List ℚ)) (output : Bool)
    (_hnames : ∀ p ∈ vars, p.1 ≠ "")
    (h : ∃ p ∈ vars, p.2.length ≠ dimCount vars) :
    apply_pi_theorem vars output = Except.error PiError.mismatchedDimensions := by
  apply apply_pi_theorem_eq_ragged
  intro hrect
  rw [rowsRectangular, List.all_eq_true] at hrect
  rcases h with ⟨p, hp, hne⟩
  exact hne (by
    have := hrect p.2 (List.mem_map_of_mem Prod.snd hp)
    rwa [decide_eq_true_eq] at this)

theorem claim_C4_witness :
    ((∀ p ∈ [("x", [1, 0, 0]), ("y", ([0, 1] : List ℚ))], p.1 ≠ "") ∧
     ∃ p ∈ [("x", [1, 0, 0]), ("y", ([0, 1] : List ℚ))],
      p.2.length ≠ dimCount [("x", [1, 0, 0]), ("y", [0, 1])]) ∧
    apply_pi_theorem [("x", [1, 0, 0]), ("y", [0, 1])] false =
      Except.error PiError.mismatchedDimensions :=
  ⟨⟨by decide, by decide⟩, claim_C4 _ false (by decide) (by decide)⟩

/-- C6: on every valid input the compute path is a pure function of the
input: it returns the ordered Pi-term sequence and its printing trace is
empty (all printing lives on the `output=False` presentation path). -/
theorem claim_C6 (vars : List (String × List ℚ)) (h : ValidInput vars) :
    apply_pi_theorem vars true = Except.ok (some (computePiTerms vars), []) := by
  rw [apply_pi_theorem_eq vars true (valid_rect vars h), if_pos rfl]

theorem claim_C6_witness :
    ValidInput exInput ∧
    apply_pi_theorem exInput true = Except.ok (some (computePiTerms exInput), []) :=
  ⟨by decide, claim_C6 exInput (by decide)⟩

/-- C7: the null-space basis cardinality always equals `n - rank` (rank plus
nullity count the columns exactly), so the guard raising the internal
consistency error is never taken — on any input and either output mode, the
call never returns that error. -/
theorem claim_C7 (vars : List (String × List ℚ)) (output : Bool) :
    ((nullspaceL (dimMatrix vars) (vars.map Prod.fst).length).length : Int) =
      ((vars.map Prod.fst).length : Int) - (rankOfInput vars : Int) ∧
    apply_pi_theorem vars output ≠ Except.error PiError.nullspaceMismatch := by
  refine ⟨nullspace_count_int vars, ?_⟩
  by_cases hrect : rowsRectangular (vars.map Prod.snd) = true
  · rw [apply_pi_theorem_eq vars output hrect]
    by_cases ho : output = true
    · rw [ho, if_pos rfl]
      intro hcontra
      exact Except.noConfusion hcontra
    · rw [if_neg ho]
      intro hcontra
      exact Except.noConfusion hcontra
  · rw [apply_pi_theorem_eq_ragged vars output hrect]
    intro hcontra
    exact PiError.noConfusion (Except.error.inj hcontra)

/-- C10: the call leaves the caller's mapping untouched: threading the
mapping through every access the source performs, the post-state equals the
input mapping, whether the call returns or raises. -/
theorem claim_C10 (vars : List (String × List ℚ)) (output : Bool) :
    apply_pi_theorem_state vars output = (apply_pi_theorem vars output, vars) := rfl

/-! ### Permuting the input variable order (C8) -/

theorem nthD_map {β : Type} (f : α → β) (l : List α) (i : Nat) (d : α) (d' : β)
    (h : i < l.length) : nthD (l.map f) i d' = f (nthD l i d) := by
  induction l generalizing i with
  | nil => simp at h
  | cons a rest ih =>
    cases i with
    | zero => rfl
    | succ i => simpa using ih i (by simpa using h)

theorem length_dimMatrix (vars : List (String × List ℚ)) :
    (dimMatrix vars).length = dimCount vars := by
  rw [dimMatrix, transposeL, List.length_map, List.length_range]
  rfl

theorem dimCount_head (vars : List (String × List ℚ)) (hne : vars ≠ []) :
    ∃ p ∈ vars, dimCount vars = p.2.length := by
  cases vars with
  | nil => exact absurd rfl hne
  | cons p rest => exact ⟨p, List.mem_cons_self _ _, rfl⟩

theorem entryM_dimMatrix (vars : List (String × List ℚ))
    (hunif : ∀ p ∈ vars, p.2.length = dimCount vars) (i j : Nat)
    (hj : j < vars.length) :
    entryM (dimMatrix vars) i j = nthD (nthD vars j ("", [])).2 i 0 := by
  by_cases hi : i < dimCount vars
  · rw [entryM, rowA, dimMatrix, transposeL]
    rw [nthD_map (fun c => (vars.map Prod.snd).map (fun r => nthD r c 0))
      (List.range (((vars.map Prod.snd).head?.getD []).length)) i 0 []
      (by rw [List.length_range]; exact hi)]
    rw [nthD_eq_get (List.range _) i 0 (by rw [List.length_range]; exact hi),
      List.get_eq_getElem, List.getElem_range]
    rw [nthD_map (fun r => nthD r i 0) (vars.map Prod.snd) j [] 0
      (by rw [List.length_map]; exact hj)]
    rw [nthD_map Prod.snd vars j ("", []) [] hj]
  · have hdim : (nthD vars j ("", [])).2.length ≤ i := by
      rw [hunif _ (nthD_mem vars j _ hj)]
      exact Nat.le_of_not_lt hi
    rw [entryM, rowA_ge (dimMatrix vars) i
      (by rw [length_dimMatrix]; exact Nat.le_of_not_lt hi)]
    rw [nthD_ge _ _ _ hdim]
    rfl

/-- The input mapping with its variable order permuted by `σ`: entry `i` of
the permuted mapping is entry `σ i` of the original. -/
def permInput (vars : List (String × List ℚ)) (σ : Equiv.Perm (Fin vars.length)) :
    List (String × List ℚ) :=
  List.ofFn (fun i => vars.get (σ i))

theorem length_permInput (vars : List (String × List ℚ))
    (σ : Equiv.Perm (Fin vars.length)) :
    (permInput vars σ).length = vars.length := by
  rw [permInput, List.length_ofFn]

theorem mem_permInput (vars : List (String × List ℚ))
    (σ : Equiv.Perm (Fin vars.length)) (p : String × List ℚ)
    (h : p ∈ permInput vars σ) : p ∈ vars := by
  rcases (List.mem_ofFn _ p).1 h with ⟨i, hi⟩
  rw [← hi]
  exact List.get_mem vars _ _

theorem dimCount_permInput (vars : List (String × List ℚ)) (h : ValidInput vars)
    (σ : Equiv.Perm (Fin vars.length)) :
    dimCount (permInput vars σ) = dimCount vars := by
  have hne' : permInput vars σ ≠ [] := by
    intro hc
    have hlen := length_permInput vars σ
    rw [hc] at hlen
    exact h.1 (List.length_eq_zero.1 hlen.symm)
  obtain ⟨p, hp, hdc⟩ := dimCount_head _ hne'
  rw [hdc, h.2.2.1 p (mem_permInput vars σ p hp)]

theorem validInput_permInput (vars : List (String × List ℚ)) (h : ValidInput vars)
    (σ : Equiv.Perm (Fin vars.length)) : ValidInput (permInput vars σ) := by
  have hdc := dimCount_permInput vars h σ
  obtain ⟨hne, hD, hunif, hnames, hnodup⟩ := h
  refine ⟨?_, by rw [hdc]; exact hD, ?_, ?_, ?_⟩
  · intro hc
    have hlen := length_permInput vars σ
    rw [hc] at hlen
    exact hne (List.length_eq_zero.1 hlen.symm)
  · intro p hp
    rw [hdc]
    exact hunif p (mem_permInput vars σ p hp)
  · intro p hp
    exact hnames p (mem_permInput vars σ p hp)
  · rw [permInput, List.map_ofFn, List.nodup_ofFn]
    intro i i' hEq
    have hval : ∀ k : Fin vars.length,
        (vars.get (σ k)).1 = nthD (vars.map Prod.fst) ((σ k : Fin vars.length) : Nat) "" := by
      intro k
      rw [nthD_map Prod.fst vars _ ("", []) "" (σ k).isLt,
        nthD_eq_get vars _ _ (σ k).isLt]
    by_contra hcontra
    have hσ : ((σ i : Fin vars.length) : Nat) ≠ ((σ i' : Fin vars.length) : Nat) :=
      fun hc => hcontra (σ.injective (Fin.ext hc))
    refine nthD_ne_of_nodup (vars.map Prod.fst) "" hnodup _ _
      (by rw [List.length_map]; exact (σ i).isLt)
      (by rw [List.length_map]; exact (σ i').isLt) hσ ?_
    rw [← hval i, ← hval i']
    exact hEq

theorem entryM_permInput (vars : List (String × List ℚ)) (h : ValidInput vars)
    (σ : Equiv.Perm (Fin vars.length)) (i : Nat) (j : Fin vars.length) :
    entryM (dimMatrix (permInput vars σ)) i (j : Nat) =
      entryM (dimMatrix vars) i ((σ j : Fin vars.length) : Nat) := by
  have h' := validInput_permInput vars h σ
  have hunif' : ∀ p ∈ permInput vars σ, p.2.length = dimCount (permInput vars σ) :=
    h'.2.2.1
  rw [entryM_dimMatrix (permInput vars σ) hunif' i (j : Nat)
      (by rw [length_permInput]; exact j.isLt),
    entryM_dimMatrix vars h.2.2.1 i ((σ j : Fin vars.length) : Nat) (σ j).isLt]
  have h1 : nthD (permInput vars σ) (j : Nat) ("", []) = vars.get (σ j) := by
    rw [permInput, nthD_ofFn _ _ _ j.isLt]
  have h2 : nthD vars ((σ j : Fin vars.length) : Nat) ("", []) = vars.get (σ j) :=
    nthD_eq_get vars _ _ (σ j).isLt
  rw [h1, h2]

/-- Precomposition with a permutation of the coordinates, as a linear map. -/
def permComp (n : Nat) (τ : Equiv.Perm (Fin n)) : (Fin n → ℚ) →ₗ[ℚ] (Fin n → ℚ) where
  toFun x := fun j => x (τ j)
  map_add' _ _ := rfl
  map_smul' _ _ := rfl

theorem permComp_surjective (n : Nat) (τ : Equiv.Perm (Fin n)) :
    Function.Surjective (permComp n τ) := by
  intro y
  refine ⟨fun j => y (τ⁻¹ j), funext (fun j => ?_)⟩
  show y (τ⁻¹ (τ j)) = y j
  rw [Equiv.Perm.inv_apply_self]

theorem matLin_permInput (vars : List (String × List ℚ)) (h : ValidInput vars)
    (σ : Equiv.Perm (Fin vars.length)) (D : Nat) :
    matLin (dimMatrix (permInput vars σ)) D vars.length =
      (matLin (dimMatrix vars) D vars.length).comp (permComp vars.length σ⁻¹) := by
  apply LinearMap.ext
  intro x
  funext i
  show ∑ j : Fin vars.length,
      entryM (dimMatrix (permInput vars σ)) (i : Nat) (j : Nat) * x j =
    ∑ j : Fin vars.length, entryM (dimMatrix vars) (i : Nat) (j : Nat) * x (σ⁻¹ j)
  refine Fintype.sum_equiv σ _ _ (fun j => ?_)
  rw [entryM_permInput vars h σ (i : Nat) j, Equiv.Perm.inv_apply_self]

theorem rankOfInput_permInput (vars : List (String × List ℚ)) (h : ValidInput vars)
    (σ : Equiv.Perm (Fin vars.length)) :
    rankOfInput (permInput vars σ) = rankOfInput vars := by
  have hlenmap : (vars.map Prod.fst).length = vars.length := by rw [List.length_map]
  have hlenmap' : ((permInput vars σ).map Prod.fst).length = vars.length := by
    rw [List.length_map, length_permInput]
  have hrows : ∀ r ∈ dimMatrix vars, r.length = vars.length := by
    intro r hr
    rw [dimMatrix_rows_length vars r hr, hlenmap]
  have hrows' : ∀ r ∈ dimMatrix (permInput vars σ), r.length = vars.length := by
    intro r hr
    rw [dimMatrix_rows_length _ r hr, hlenmap']
  have hD : (dimMatrix vars).length ≤ dimCount vars := by
    rw [length_dimMatrix]
  have hD' : (dimMatrix (permInput vars σ)).length ≤ dimCount vars := by
    rw [length_dimMatrix, dimCount_permInput vars h σ]
  have hA := rankL_eq_finrank_range (dimMatrix vars) vars.length (dimCount vars)
    hrows hD
  have hA' := rankL_eq_finrank_range (dimMatrix (permInput vars σ)) vars.length
    (dimCount vars) hrows' hD'
  have hrange : LinearMap.range
        (matLin (dimMatrix (permInput vars σ)) (dimCount vars) vars.length) =
      LinearMap.range (matLin (dimMatrix vars) (dimCount vars) vars.length) := by
    rw [matLin_permInput vars h σ (dimCount vars), LinearMap.range_comp,
      LinearMap.range_eq_top.2 (permComp_surjective vars.length σ⁻¹),
      Submodule.map_top]
  rw [rankOfInput, rankOfInput, hlenmap, hlenmap', ← hA, ← hA', hrange]

/-- The Pi-term list always has one entry per free column:
`N - rank` of them. -/
theorem computePiTerms_length (vars : List (String × List ℚ)) :
    (computePiTerms vars).length = vars.length - rankOfInput vars := by
  have hc := length_nullspaceL (dimMatrix vars) (vars.map Prod.fst).length
    (dimMatrix_rows_length vars)
  rw [computePiTerms, List.length_map, rankOfInput]
  have hm : (vars.map Prod.fst).length = vars.length := List.length_map _ _
  omega

/-- C8: for every valid input and every permutation `σ` of its variable
order, the compute path still succeeds on the permuted input, returns the
same number of Pi terms (the rank of the dimension matrix, hence `pi_count`,
is invariant under column permutation), and every returned term is still
dimensionless — though the terms' composition may differ. -/
theorem claim_C8 (vars : List (String × List ℚ)) (h : ValidInput vars)
    (σ : Equiv.Perm (Fin vars.length)) :
    apply_pi_theorem (permInput vars σ) true =
      Except.ok (some (computePiTerms (permInput vars σ)), []) ∧
    (computePiTerms (permInput vars σ)).length = (computePiTerms vars).length ∧
    ∀ t ∈ computePiTerms (permInput vars σ),
      mulVecL (dimMatrix (permInput vars σ)) t.exponents =
        List.replicate (dimMatrix (permInput vars σ)).length 0 := by
  have h' := validInput_permInput vars h σ
  refine ⟨?_, ?_, computePiTerms_dimensionless _⟩
  · rw [apply_pi_theorem_eq _ true (valid_rect _ h'), if_pos rfl]
  · rw [computePiTerms_length, computePiTerms_length, length_permInput,
      rankOfInput_permInput vars h σ]

theorem claim_C8_witness :
    ValidInput exInput ∧
    (apply_pi_theorem (permInput exInput (Equiv.swap ⟨0, by decide⟩ ⟨1, by decide⟩))
        true =
      Except.ok
        (some (computePiTerms
          (permInput exInput (Equiv.swap ⟨0, by decide⟩ ⟨1, by decide⟩))), []) ∧
    (computePiTerms
        (permInput exInput (Equiv.swap ⟨0, by decide⟩ ⟨1, by decide⟩))).length =
      (computePiTerms exInput).length ∧
    ∀ t ∈ computePiTerms
        (permInput exInput (Equiv.swap ⟨0, by decide⟩ ⟨1, by decide⟩)),
      mulVecL (dimMatrix
          (permInput exInput (Equiv.swap ⟨0, by decide⟩ ⟨1, by decide⟩)))
          t.exponents =
        List.replicate (dimMatrix
          (permInput exInput (Equiv.swap ⟨0, by decide⟩ ⟨1, by decide⟩))).length 0) :=
  ⟨by decide, claim_C8 exInput (by decide) (Equiv.swap ⟨0, by decide⟩ ⟨1, by decide⟩)⟩

section C9Section

attribute [local semireducible] Rat.mul Rat.inv Rat.add Rat.sub

/-- C9: on the 11-variable, 3-dimension tip-clearance input of the source's
`__main__` block, the dimension matrix has rank 3, the compute path returns
exactly 8 Pi terms, and each of them is dimensionless under the substitution
oracle. -/
theorem claim_C9 :
    rankOfInput chenInput = 3 ∧
    (computePiTerms chenInput).length = 8 ∧
    apply_pi_theorem chenInput true =
      Except.ok (some (computePiTerms chenInput), []) ∧
    ∀ t ∈ computePiTerms chenInput,
      mulVecL (dimMatrix chenInput) t.exponents = List.replicate 3 0 := by
  decide

end C9Section

end PiSpec
